import Mathlib

/-!
Shallow embedding of `src/inverted_index.py` (class `InvertedIndex`) and
verification of its specification claims.

Modelling conventions:
* Python `dict`s (insertion-ordered, string keys) are association lists
  `List (String × β)`; key update keeps the position of an existing key and
  appends a fresh key at the end, exactly like CPython dicts.
* The nested `defaultdict(lambda: defaultdict(list))` index is an association
  list of association lists; auto-vivification on subscript access is modelled
  explicitly where the code performs it (`search_phrase`).
* Python `set`s of document ids become `Finset String`; iteration order over a
  set never affects any result proved here.
* Character classes are modelled in their ASCII semantics: Python `str.lower`
  and the regex classes `[a-z0-9]` / `\w` agree with this model on ASCII text.
-/

namespace InvertedIndex

/-- Characters matched by the regex class `[a-z0-9]` of `preprocess`. -/
def tokenChar (c : Char) : Bool :=
  ('a' ≤ c && c ≤ 'z') || ('0' ≤ c && c ≤ '9')

/-- Characters in the regex class `\w` (ASCII fragment: `[A-Za-z0-9_]`),
which governs the `\b` word boundaries in `re.findall(r'\b[a-z0-9]+\b', text)`. -/
def wordChar (c : Char) : Bool :=
  c.isAlpha || c.isDigit || c == '_'

/-- Left-to-right scan of `re.findall(r'\b[a-z0-9]+\b', text)`.  A match is a
maximal `[a-z0-9]` run whose left and right neighbours are not word
characters: `[a-z0-9]+` is greedy and a shorter match would put `\b` between
two word characters, so backtracking never succeeds and `findall` skips a run
that touches a word character such as an underscore.  `acc` holds the current
run reversed, `good` whether the run began at a word boundary, `prevWord`
whether the previous character was a word character. -/
def findAux (prevWord : Bool) (acc : List Char) (good : Bool) :
    List Char → List String
  | [] => if good && !acc.isEmpty then [String.mk acc.reverse] else []
  | c :: rest =>
    if tokenChar c then
      if acc.isEmpty then findAux true [c] (!prevWord) rest
      else findAux true (c :: acc) good rest
    else
      if good && !acc.isEmpty && !(wordChar c) then
        String.mk acc.reverse :: findAux (wordChar c) [] false rest
      else
        findAux (wordChar c) [] false rest

/-- Model of `re.findall(r'\b[a-z0-9]+\b', text)` on a character list. -/
def findTokens (cs : List Char) : List String :=
  findAux false [] false cs

/-- The fixed stop-word set returned by `_load_stop_words` (the Python set
literal contains `'the'` twice; a set keeps one copy). -/
def stop_words : List String :=
  ["a", "an", "and", "are", "as", "at", "be", "by", "for", "from",
   "has", "he", "in", "is", "it", "its", "of", "on", "that", "the",
   "to", "was", "will", "with", "this", "but", "they", "have",
   "had", "what", "when", "where", "who", "which", "why", "how"]

/-- Method `preprocess`: lowercase, extract tokens with
`re.findall(r'\b[a-z0-9]+\b', text)`, drop stop words. -/
def preprocess (text : String) : List String :=
  let lowered := text.data.map Char.toLower
  let tokens := findTokens lowered
  tokens.filter (fun t => !(stop_words.contains t))

/-- Association-list lookup: first binding of key `k`, as Python `d.get(k)`. -/
def alookup {β : Type} (k : String) : List (String × β) → Option β
  | [] => none
  | (k', v) :: rest => if k' = k then some v else alookup k rest

/-- Python `d[k] = f(d.get(k, dflt))` read-modify-write on a dict: an existing
key keeps its position, a fresh key is appended at the end. -/
def aupdate {β : Type} (k : String) (dflt : β) (f : β → β) :
    List (String × β) → List (String × β)
  | [] => [(k, f dflt)]
  | (k', v) :: rest =>
    if k' = k then (k', f v) :: rest else (k', v) :: aupdate k dflt f rest

/-- Python `d[k] = v` assignment on a dict. -/
def aset {β : Type} (k : String) (v : β) (l : List (String × β)) :
    List (String × β) :=
  aupdate k v (fun _ => v) l

/-- One posting map: document id → position list (`index[term]`). -/
abbrev Postings := List (String × List Nat)

/-- The nested index mapping: term → document id → position list. -/
abbrev Index := List (String × Postings)

/-- The mutable state of an `InvertedIndex` instance: `self.index`,
`self.documents` and `self.doc_lengths` (the stop-word set is the fixed
constant `stop_words` and carries no per-instance state). -/
structure Store where
  index : Index
  documents : List (String × String)
  doc_lengths : List (String × Nat)
deriving DecidableEq, Repr

/-- Constructor `InvertedIndex.__init__`: all three mappings start empty. -/
def emptyStore : Store := ⟨[], [], []⟩

/-- Method `add_document`: store the raw content, record the filtered token count,
and for each token at (0-based) position `p` append `p` to the posting list of
`(token, doc_id)`.  Nothing is cleared first: `self.index[token][doc_id]
.append(position)` extends whatever list is already there. -/
def add_document (s : Store) (doc_id content : String) : Store :=
  let tokens := preprocess content
  { index :=
      (tokens.enum).foldl
        (fun idx pt =>
          aupdate pt.2 [] (fun inner => aupdate doc_id [] (fun ps => ps ++ [pt.1]) inner) idx)
        s.index,
    documents := aset doc_id content s.documents,
    doc_lengths := aset doc_id tokens.length s.doc_lengths }

/-- Method `build_from_documents`: add every `(doc_id, content)` pair in order. -/
def build_from_documents (s : Store) (documents : List (String × String)) : Store :=
  documents.foldl (fun st p => add_document st p.1 p.2) s

/-- Accessor `self.index.get(term, ...)` with empty-dict default: the posting map of a term, empty if absent. -/
def getIdx (s : Store) (term : String) : Postings :=
  (alookup term s.index).getD []

/-- The set of document ids of a posting map (`set(postings.keys())`). -/
def docsOf (ps : Postings) : Finset String :=
  (ps.map Prod.fst).toFinset

/-- Method `search`: preprocess the query and return the posting map of the FIRST
resulting token only; empty if preprocessing yields no tokens. -/
def search (s : Store) (term : String) : Postings :=
  match preprocess term with
  | [] => []
  | t :: _ => getIdx s t

/-- Method `search_and`: empty for an empty input list; otherwise flatten the token
lists of all inputs, return empty if no tokens remain, else intersect the
document sets of all tokens' postings. -/
def search_and (s : Store) (terms : List String) : Finset String :=
  if terms.isEmpty then ∅
  else
    match terms.foldl (fun acc t => acc ++ preprocess t) [] with
    | [] => ∅
    | t :: rest =>
      rest.foldl (fun acc tok => acc ∩ docsOf (getIdx s tok)) (docsOf (getIdx s t))

/-- Method `search_or`: union of the document sets of every token of every input. -/
def search_or (s : Store) (terms : List String) : Finset String :=
  terms.foldl
    (fun acc t => (preprocess t).foldl (fun a tok => a ∪ docsOf (getIdx s tok)) acc) ∅

/-- All stored document ids (`set(self.documents.keys())`). -/
def allDocs (s : Store) : Finset String :=
  (s.documents.map Prod.fst).toFinset

/-- Method `search_not`: documents matching `include_terms` (all documents when that
list is empty) minus the documents matching any `exclude_terms`. -/
def search_not (s : Store) (include_terms exclude_terms : List String) : Finset String :=
  (if include_terms.isEmpty then allDocs s else search_and s include_terms)
    \ search_or s exclude_terms

/-- The inner loop of `search_phrase` over `enumerate(tokens[1:], 1)`: check
one start position, threading the index because `self.index[token]` on an
absent token auto-vivifies an empty posting map (appended at the end of the
dict) before the membership test fails. -/
def phraseCheck (doc_id : String) (start_pos : Nat) :
    List (Nat × String) → Index → Bool × Index
  | [], idx => (true, idx)
  | (i, token) :: rest, idx =>
    match alookup token idx with
    | none => (false, idx ++ [(token, [])])
    | some inner =>
      match alookup doc_id inner with
      | none => (false, idx)
      | some ps =>
        if start_pos + i ∈ ps then phraseCheck doc_id start_pos rest idx
        else (false, idx)

/-- The `for start_pos in positions` loop of `search_phrase`: stop at the
first start position whose full offset check succeeds. -/
def phraseStarts (doc_id : String) (restEnum : List (Nat × String)) :
    List Nat → Index → Bool × Index
  | [], idx => (false, idx)
  | p :: more, idx =>
    match phraseCheck doc_id p restEnum idx with
    | (true, idx') => (true, idx')
    | (false, idx') => phraseStarts doc_id restEnum more idx'

/-- The `for doc_id in candidate_docs` loop of `search_phrase`.  Candidate
docs are iterated in posting order; the result set and the vivified entries
do not depend on the iteration order of the Python set. -/
def phraseDocs (first_term : String) (restEnum : List (Nat × String)) :
    List String → Index → Finset String × Index
  | [], idx => (∅, idx)
  | d :: ds, idx =>
    let positions := (alookup d ((alookup first_term idx).getD [])).getD []
    match phraseStarts d restEnum positions idx with
    | (ok, idx') =>
      let rec_res := phraseDocs first_term restEnum ds idx'
      (if ok then insert d rec_res.1 else rec_res.1, rec_res.2)

/-- Method `search_phrase`, with its side effect on the store made explicit: returns
the result set and the store as left behind by the call (the index may have
gained empty posting maps for absent query tokens). -/
def search_phrase_run (s : Store) (phrase : String) : Finset String × Store :=
  match preprocess phrase with
  | [] => (∅, s)
  | [t] => (docsOf (getIdx s t), s)
  | t0 :: rest =>
    let cands := (getIdx s t0).map Prod.fst
    let out := phraseDocs t0 (List.enumFrom 1 rest) cands s.index
    (out.1, { s with index := out.2 })

/-- A single start-position check of `search_phrase`, value level: every
subsequent token at 1-based offset `i` has position `start_pos + i` in its
posting for the document. -/
def phraseHit (s : Store) (doc_id : String) (start_pos : Nat)
    (restEnum : List (Nat × String)) : Bool :=
  restEnum.all (fun it => decide (start_pos + it.1 ∈ (alookup doc_id (getIdx s it.2)).getD []))

/-- The result of `search_phrase` as a pure function of the store (proved
below to agree with `search_phrase_run`). -/
def search_phrase (s : Store) (phrase : String) : Finset String :=
  match preprocess phrase with
  | [] => ∅
  | [t] => docsOf (getIdx s t)
  | t0 :: rest =>
    ((getIdx s t0).map Prod.fst).filter
      (fun d => ((alookup d (getIdx s t0)).getD []).any
        (fun st => phraseHit s d st (List.enumFrom 1 rest)))
      |>.toFinset

/-- Method `get_term_frequency`: length of the position list of the first normalized
token of `term` in `doc_id`; 0 when preprocessing yields nothing or either
key is absent. -/
def get_term_frequency (s : Store) (term doc_id : String) : Nat :=
  match preprocess term with
  | [] => 0
  | t :: _ => ((alookup doc_id (getIdx s t)).getD []).length

/-- Method `get_document_frequency`: number of document entries in the posting map
of the first normalized token of `term`. -/
def get_document_frequency (s : Store) (term : String) : Nat :=
  match preprocess term with
  | [] => 0
  | t :: _ => (getIdx s t).length

/-- The serialized record: the `data` dictionary written by `save_to_file`
(`index` with each inner defaultdict copied to a plain dict, `documents`,
`doc_lengths`).  The JSON text layer is a faithful key/value encoding of this
record and is not modelled. -/
structure Record where
  index : Index
  documents : List (String × String)
  doc_lengths : List (String × Nat)
deriving DecidableEq, Repr

/-- The record construction of `save_to_file`. -/
def save_record (s : Store) : Record :=
  ⟨s.index, s.documents, s.doc_lengths⟩

/-- The store reconstruction of `load_from_file`: start from a fresh nested
defaultdict and assign `self.index[term][doc_id] = positions` for every entry
of the record's index (a term whose posting map is empty is never touched and
so stays absent); `documents` and `doc_lengths` are taken verbatim. -/
def load_record (r : Record) : Store :=
  { index :=
      r.index.foldl
        (fun idx tp => tp.2.foldl
          (fun idx2 dp => aupdate tp.1 [] (aset dp.1 dp.2) idx2) idx)
        [],
    documents := r.documents,
    doc_lengths := r.doc_lengths }

/-- Relation stating that `idx'` extends `idx` only by empty posting maps for absent terms: the
precise shape of the residue `search_phrase` can leave in the index. -/
def ExtOnly (idx idx' : Index) : Prop :=
  ∀ t, alookup t idx' = alookup t idx ∨
    (alookup t idx = none ∧ alookup t idx' = some [])

/-- The offset condition of one start position of `search_phrase`, evaluated
against a fixed index (no threading). -/
def offsetsOk (idx : Index) (doc_id : String) (start_pos : Nat)
    (restEnum : List (Nat × String)) : Bool :=
  restEnum.all (fun it =>
    decide (start_pos + it.1 ∈ (alookup doc_id ((alookup it.2 idx).getD [])).getD []))

/-- Modelled from the spec: the claim-side tokenizer in which EVERY character
outside `[a-z0-9]` separates tokens — the maximal `[a-z0-9]` runs of the text
in order, with no word-boundary requirement.  Used to compare `preprocess`
against the claim.  `acc` holds the current run reversed. -/
def runsAux (acc : List Char) : List Char → List (List Char)
  | [] => if acc.isEmpty then [] else [acc.reverse]
  | c :: rest =>
    if tokenChar c then runsAux (c :: acc) rest
    else if acc.isEmpty then runsAux [] rest
    else acc.reverse :: runsAux [] rest

/-- The maximal `[a-z0-9]` runs of a character list, in order. -/
def maxRuns (cs : List Char) : List String :=
  (runsAux [] cs).map String.mk

/-- Modelled from the spec: lowercase, take every maximal `[a-z0-9]` run as a
token, drop stop words. -/
def preprocess_spec (text : String) : List String :=
  (maxRuns (text.data.map Char.toLower)).filter (fun t => !(stop_words.contains t))

/-- Intersection of a non-empty list of sets, first element as the base
(formalizes the claim's "intersection over all i"). -/
def interList : List (Finset String) → Finset String
  | [] => ∅
  | x :: xs => xs.foldl (fun a b => a ∩ b) x

/-- Keys of an association list, in order. -/
def keysOf {β : Type} (l : List (String × β)) : List String :=
  l.map Prod.fst

/-- Well-formedness of the nested index as maintained by `add_document`:
term keys are distinct, and every term has a non-empty posting map with
distinct document keys. -/
def IndexWF (idx : Index) : Prop :=
  (keysOf idx).Nodup ∧ ∀ tp ∈ idx, tp.2 ≠ [] ∧ (keysOf tp.2).Nodup

/-- Document `d` has no posting anywhere in the index. -/
def NoPostings (idx : Index) (d : String) : Prop :=
  ∀ tp ∈ idx, alookup d tp.2 = none

/-- Total number of positions attributed to document `d` across all posting
entries of the index. -/
def sumPostings (s : Store) (d : String) : Nat :=
  (s.index.map (fun tp => ((alookup d tp.2).getD []).length)).sum

/-- The store of the spec's phrase-order example: one document containing
"inverted index enables fast search". -/
def phraseExampleStore : Store :=
  add_document emptyStore "doc3" "Inverted index enables fast search"

/-!  Association-list lemmas. -/

theorem alookup_aupdate_self {β : Type} (k : String) (d : β) (f : β → β)
    (l : List (String × β)) :
    alookup k (aupdate k d f l) = some (f ((alookup k l).getD d)) := by
  induction l with
  | nil => simp [alookup, aupdate]
  | cons p rest ih =>
    obtain ⟨k', v⟩ := p
    by_cases h : k' = k
    · subst h
      simp [alookup, aupdate]
    · simp [alookup, aupdate, h, ih]

theorem alookup_aupdate_ne {β : Type} {k k' : String} (d : β) (f : β → β)
    (l : List (String × β)) (hne : k' ≠ k) :
    alookup k' (aupdate k d f l) = alookup k' l := by
  induction l with
  | nil => simp [alookup, aupdate, Ne.symm hne]
  | cons p rest ih =>
    obtain ⟨k'', v⟩ := p
    by_cases h : k'' = k
    · subst h
      simp [alookup, aupdate, Ne.symm hne]
    · by_cases h2 : k'' = k'
      · subst h2
        simp [alookup, aupdate, h]
      · simp [alookup, aupdate, h, h2, ih]

theorem alookup_append_fresh {β : Type} {k t : String} {v : β}
    (l : List (String × β)) :
    alookup k (l ++ [(t, v)]) =
      if t = k then some ((alookup k l).getD v) else alookup k l := by
  induction l with
  | nil => simp [alookup]
  | cons p rest ih =>
    obtain ⟨k', v'⟩ := p
    by_cases h : k' = k
    · simp [alookup, h]
    · simp [alookup, h, ih]

theorem alookup_mem {β : Type} {k : String} {v : β} {l : List (String × β)}
    (h : alookup k l = some v) : (k, v) ∈ l := by
  induction l with
  | nil => simp [alookup] at h
  | cons p rest ih =>
    obtain ⟨k', v'⟩ := p
    by_cases hk : k' = k
    · subst hk
      simp [alookup] at h
      simp [h]
    · simp [alookup, hk] at h
      exact List.mem_cons_of_mem _ (ih h)

theorem mem_alookup_isSome {β : Type} {k : String} {v : β} {l : List (String × β)}
    (h : (k, v) ∈ l) : (alookup k l).isSome := by
  induction l with
  | nil => simp at h
  | cons p rest ih =>
    obtain ⟨k', v'⟩ := p
    by_cases hk : k' = k
    · simp [alookup, hk]
    · rcases List.mem_cons.mp h with h1 | h1
      · cases h1
        simp at hk
      · simpa [alookup, hk] using ih h1

/-!  The effect of `search_phrase` on the index: it can only append empty
posting maps for previously absent terms. -/

theorem ExtOnly.refl {idx : Index} : ExtOnly idx idx :=
  fun _ => Or.inl rfl

theorem ExtOnly.trans {idx0 idx1 idx2 : Index}
    (h01 : ExtOnly idx0 idx1) (h12 : ExtOnly idx1 idx2) : ExtOnly idx0 idx2 := by
  intro t
  rcases h12 t with h | ⟨h1, h2⟩
  · rcases h01 t with h' | ⟨h1', h2'⟩
    · exact Or.inl (h.trans h')
    · exact Or.inr ⟨h1', h.trans h2'⟩
  · rcases h01 t with h' | ⟨h1', h2'⟩
    · exact Or.inr ⟨h'.symm.trans h1, h2⟩
    · rw [h2'] at h1
      cases h1

theorem ExtOnly.getD_eq {idx idx' : Index} (h : ExtOnly idx idx') (t : String) :
    (alookup t idx').getD [] = (alookup t idx).getD [] := by
  rcases h t with h' | ⟨h1, h2⟩
  · rw [h']
  · simp [h1, h2]

theorem ExtOnly.append_empty {idx : Index} {t : String}
    (h : alookup t idx = none) : ExtOnly idx (idx ++ [(t, [])]) := by
  intro t'
  rw [alookup_append_fresh]
  by_cases ht : t = t'
  · subst ht
    simp [h]
  · simp [ht]

theorem offsetsOk_congr {idx0 idx1 : Index}
    (h : ∀ t, (alookup t idx1).getD [] = (alookup t idx0).getD [])
    (d : String) (sp : Nat) (rest : List (Nat × String)) :
    offsetsOk idx1 d sp rest = offsetsOk idx0 d sp rest := by
  simp only [offsetsOk, h]

theorem phraseCheck_fst (d : String) (sp : Nat) (rest : List (Nat × String))
    (idx : Index) : (phraseCheck d sp rest idx).1 = offsetsOk idx d sp rest := by
  induction rest with
  | nil => simp [phraseCheck, offsetsOk]
  | cons it rest ih =>
    obtain ⟨i, tok⟩ := it
    cases htok : alookup tok idx with
    | none => simp [phraseCheck, offsetsOk, htok, alookup]
    | some inner =>
      cases hdoc : alookup d inner with
      | none => simp [phraseCheck, offsetsOk, htok, hdoc]
      | some ps =>
        by_cases hmem : sp + i ∈ ps
        · simpa [phraseCheck, offsetsOk, htok, hdoc, hmem] using ih
        · simp [phraseCheck, offsetsOk, htok, hdoc, hmem]

theorem phraseCheck_ext (d : String) (sp : Nat) (rest : List (Nat × String))
    (idx : Index) : ExtOnly idx (phraseCheck d sp rest idx).2 := by
  induction rest with
  | nil => exact ExtOnly.refl
  | cons it rest ih =>
    obtain ⟨i, tok⟩ := it
    cases htok : alookup tok idx with
    | none => simpa [phraseCheck, htok] using ExtOnly.append_empty htok
    | some inner =>
      cases hdoc : alookup d inner with
      | none => simpa [phraseCheck, htok, hdoc] using ExtOnly.refl
      | some ps =>
        by_cases hmem : sp + i ∈ ps
        · simpa [phraseCheck, htok, hdoc, hmem] using ih
        · simpa [phraseCheck, htok, hdoc, hmem] using ExtOnly.refl

theorem phraseStarts_spec {idx0 : Index} (d : String)
    (rest : List (Nat × String)) (ps : List Nat) :
    ∀ idx, ExtOnly idx0 idx →
      (phraseStarts d rest ps idx).1 = ps.any (fun p => offsetsOk idx0 d p rest) ∧
      ExtOnly idx0 (phraseStarts d rest ps idx).2 := by
  induction ps with
  | nil =>
    intro idx h
    simpa [phraseStarts] using h
  | cons p more ih =>
    intro idx h
    have hchk : (phraseCheck d p rest idx).1 = offsetsOk idx0 d p rest := by
      rw [phraseCheck_fst, offsetsOk_congr (ExtOnly.getD_eq h)]
    have hext : ExtOnly idx0 (phraseCheck d p rest idx).2 :=
      h.trans (phraseCheck_ext d p rest idx)
    rcases hc : phraseCheck d p rest idx with ⟨b, idx'⟩
    rw [hc] at hchk hext
    cases b with
    | true =>
      have hunf : phraseStarts d rest (p :: more) idx = (true, idx') := by
        simp only [phraseStarts, hc]
      rw [hunf]
      refine ⟨?_, hext⟩
      simp only [List.any_cons, ← hchk]
      simp
    | false =>
      have hunf : phraseStarts d rest (p :: more) idx = phraseStarts d rest more idx' := by
        simp only [phraseStarts, hc]
      rw [hunf]
      have hrec := ih idx' hext
      refine ⟨?_, hrec.2⟩
      simp only [List.any_cons, ← hchk]
      simp [hrec.1]

theorem phraseDocs_spec {idx0 : Index} (t0 : String)
    (rest : List (Nat × String)) (cands : List String) :
    ∀ idx, ExtOnly idx0 idx →
      (phraseDocs t0 rest cands idx).1 =
        (cands.filter (fun d =>
          ((alookup d ((alookup t0 idx0).getD [])).getD []).any
            (fun sp => offsetsOk idx0 d sp rest))).toFinset ∧
      ExtOnly idx0 (phraseDocs t0 rest cands idx).2 := by
  induction cands with
  | nil =>
    intro idx h
    simpa [phraseDocs] using h
  | cons d ds ih =>
    intro idx h
    have hpos : (alookup d ((alookup t0 idx).getD [])).getD [] =
        (alookup d ((alookup t0 idx0).getD [])).getD [] := by
      rw [ExtOnly.getD_eq h]
    have hst := phraseStarts_spec d rest
      ((alookup d ((alookup t0 idx).getD [])).getD []) idx h
    rcases hs : phraseStarts d rest
      ((alookup d ((alookup t0 idx).getD [])).getD []) idx with ⟨ok, idx'⟩
    rw [hs] at hst
    have hrec := ih idx' hst.2
    rcases hd : phraseDocs t0 rest ds idx' with ⟨res, idx''⟩
    rw [hd] at hrec
    have hunf : phraseDocs t0 rest (d :: ds) idx =
        (if ok then insert d res else res, idx'') := by
      simp only [phraseDocs, hs, hd]
    rw [hunf]
    refine ⟨?_, hrec.2⟩
    have hok : ok = ((alookup d ((alookup t0 idx0).getD [])).getD []).any
        (fun sp => offsetsOk idx0 d sp rest) := by
      have h1 := hst.1
      simp only at h1
      rw [← hpos, ← h1]
    have hres : res = (List.filter (fun d =>
        ((alookup d ((alookup t0 idx0).getD [])).getD []).any
          (fun sp => offsetsOk idx0 d sp rest)) ds).toFinset := hrec.1
    rw [List.filter_cons, ← hok]
    cases hokv : ok with
    | true => simp [hokv, List.toFinset_cons, hres]
    | false => simp [hokv, hres]

theorem search_phrase_run_fst (s : Store) (phrase : String) :
    (search_phrase_run s phrase).1 = search_phrase s phrase := by
  cases hp : preprocess phrase with
  | nil => simp [search_phrase_run, search_phrase, hp]
  | cons t0 ts =>
    cases ts with
    | nil => simp [search_phrase_run, search_phrase, hp]
    | cons t1 rest =>
      have h := phraseDocs_spec t0 (List.enumFrom 1 (t1 :: rest))
        ((getIdx s t0).map Prod.fst) s.index ExtOnly.refl
      simp only [search_phrase_run, search_phrase, hp]
      exact h.1

theorem search_phrase_run_store (s : Store) (phrase : String) :
    (search_phrase_run s phrase).2.documents = s.documents ∧
    (search_phrase_run s phrase).2.doc_lengths = s.doc_lengths ∧
    ExtOnly s.index (search_phrase_run s phrase).2.index := by
  cases hp : preprocess phrase with
  | nil => simp [search_phrase_run, hp, ExtOnly.refl]
  | cons t0 ts =>
    cases ts with
    | nil => simp [search_phrase_run, hp, ExtOnly.refl]
    | cons t1 rest =>
      have h := phraseDocs_spec t0 (List.enumFrom 1 (t1 :: rest))
        ((getIdx s t0).map Prod.fst) s.index ExtOnly.refl
      simp only [search_phrase_run, hp]
      simpa using h.2

/-!  Every query result depends on the store only through `getIdx` (and the
`documents` map), so the empty entries `search_phrase` vivifies are invisible
to all queries. -/

theorem foldl_ext {α β : Type} (f g : β → α → β) (h : ∀ b a, f b a = g b a) :
    ∀ (l : List α) (b : β), List.foldl f b l = List.foldl g b l := by
  intro l
  induction l with
  | nil => intro b; rfl
  | cons a l ih => intro b; rw [List.foldl_cons, List.foldl_cons, h, ih]

theorem search_congr {s' s : Store} (hg : ∀ t, getIdx s' t = getIdx s t)
    (term : String) : search s' term = search s term := by
  unfold search
  cases preprocess term with
  | nil => rfl
  | cons t _ => exact hg t

theorem search_and_congr {s' s : Store} (hg : ∀ t, getIdx s' t = getIdx s t)
    (terms : List String) : search_and s' terms = search_and s terms := by
  unfold search_and
  simp only [hg]

theorem search_or_congr {s' s : Store} (hg : ∀ t, getIdx s' t = getIdx s t)
    (terms : List String) : search_or s' terms = search_or s terms := by
  unfold search_or
  simp only [hg]

theorem search_not_congr {s' s : Store} (hg : ∀ t, getIdx s' t = getIdx s t)
    (hd : s'.documents = s.documents) (incl excl : List String) :
    search_not s' incl excl = search_not s incl excl := by
  unfold search_not allDocs
  rw [search_and_congr hg, search_or_congr hg, hd]

theorem phraseHit_congr {s' s : Store} (hg : ∀ t, getIdx s' t = getIdx s t)
    (d : String) (sp : Nat) (rest : List (Nat × String)) :
    phraseHit s' d sp rest = phraseHit s d sp rest := by
  unfold phraseHit
  simp only [hg]

theorem search_phrase_congr {s' s : Store} (hg : ∀ t, getIdx s' t = getIdx s t)
    (phrase : String) : search_phrase s' phrase = search_phrase s phrase := by
  unfold search_phrase
  simp only [hg, phraseHit_congr hg]

theorem get_term_frequency_congr {s' s : Store} (hg : ∀ t, getIdx s' t = getIdx s t)
    (term doc_id : String) :
    get_term_frequency s' term doc_id = get_term_frequency s term doc_id := by
  unfold get_term_frequency
  simp only [hg]

theorem get_document_frequency_congr {s' s : Store} (hg : ∀ t, getIdx s' t = getIdx s t)
    (term : String) :
    get_document_frequency s' term = get_document_frequency s term := by
  unfold get_document_frequency
  simp only [hg]

/-- C2, counterexample: the query engine is NOT free of store mutation.  On a
store holding the document "inverted index", `search_phrase("inverted zebra")`
leaves a different `index` mapping behind (an auto-vivified empty posting map
for the absent token "zebra"), contradicting the claim that the index is
exactly the same after every query. -/
theorem C2_counterexample :
    (search_phrase_run (add_document emptyStore "d1" "inverted index")
        "inverted zebra").2.index ≠
      (add_document emptyStore "d1" "inverted index").index ∧
    (search_phrase_run (add_document emptyStore "d1" "inverted index")
        "inverted zebra").2.index =
      (add_document emptyStore "d1" "inverted index").index ++ [("zebra", [])] := by
  constructor
  · decide
  · decide

/-- C2, amended: `search`, `search_and`, `search_or`, `search_not`,
`get_term_frequency` and `get_document_frequency` are pure reads (they are
functions of the store in this model, exactly as the code only calls
`dict.get`), but `search_phrase` may extend the index with empty posting
maps for absent query tokens.  It never touches `documents` or
`doc_lengths`, the extension affects no posting of any term, and every
subsequent query result on the mutated store equals the result on the
original store. -/
theorem C2_amended : ∀ (s : Store) (phrase : String),
    (search_phrase_run s phrase).2.documents = s.documents ∧
    (search_phrase_run s phrase).2.doc_lengths = s.doc_lengths ∧
    (∀ t, alookup t (search_phrase_run s phrase).2.index = alookup t s.index ∨
      (alookup t s.index = none ∧
        alookup t (search_phrase_run s phrase).2.index = some [])) ∧
    (∀ term, search (search_phrase_run s phrase).2 term = search s term) ∧
    (∀ ts, search_and (search_phrase_run s phrase).2 ts = search_and s ts) ∧
    (∀ ts, search_or (search_phrase_run s phrase).2 ts = search_or s ts) ∧
    (∀ incl excl, search_not (search_phrase_run s phrase).2 incl excl =
      search_not s incl excl) ∧
    (∀ p, (search_phrase_run (search_phrase_run s phrase).2 p).1 =
      (search_phrase_run s p).1) ∧
    (∀ term d, get_term_frequency (search_phrase_run s phrase).2 term d =
      get_term_frequency s term d) ∧
    (∀ term, get_document_frequency (search_phrase_run s phrase).2 term =
      get_document_frequency s term) := by
  intro s phrase
  obtain ⟨hdoc, hlen, hext⟩ := search_phrase_run_store s phrase
  have hg : ∀ t, getIdx (search_phrase_run s phrase).2 t = getIdx s t := by
    intro t
    unfold getIdx
    exact hext.getD_eq t
  refine ⟨hdoc, hlen, hext, search_congr hg, search_and_congr hg,
    search_or_congr hg, fun i e => search_not_congr hg hdoc i e, ?_,
    fun t d => get_term_frequency_congr hg t d,
    fun t => get_document_frequency_congr hg t⟩
  intro p
  rw [search_phrase_run_fst, search_phrase_run_fst, search_phrase_congr hg]

/-- C1, code bug: `add_document` never clears the postings previously
attributed to a re-added document id.  Adding ("d1", "hello") twice leaves
the posting `[0, 0]` where a single add leaves `[0]`, so the final store,
term frequencies and postings differ from a single add, contradicting the
spec's idempotence/clearing requirement. -/
theorem C1_code_bug :
    alookup "d1" (getIdx (add_document (add_document emptyStore "d1" "hello")
        "d1" "hello") "hello") = some [0, 0] ∧
    alookup "d1" (getIdx (add_document emptyStore "d1" "hello") "hello") =
      some [0] ∧
    get_term_frequency (add_document (add_document emptyStore "d1" "hello")
        "d1" "hello") "hello" "d1" = 2 ∧
    get_term_frequency (add_document emptyStore "d1" "hello") "hello" "d1" = 1 ∧
    add_document (add_document emptyStore "d1" "hello") "d1" "hello" ≠
      add_document emptyStore "d1" "hello" := by
  refine ⟨by decide, by decide, by decide, by decide, by decide⟩

/-- C4, code bug: because a re-add appends to the old position lists instead
of replacing them, a reachable store (re-adding id "d1" with content
"hello hello") has the posting `[0, 1, 0, 1]`, which is not strictly
increasing and contains duplicates, contradicting the claimed invariant for
stores reachable through re-adds. -/
theorem C4_code_bug :
    (alookup "d1" (getIdx (add_document (add_document emptyStore "d1"
        "hello hello") "d1" "hello hello") "hello")).getD [] = [0, 1, 0, 1] ∧
    ¬ List.Pairwise (· < ·)
      ((alookup "d1" (getIdx (add_document (add_document emptyStore "d1"
        "hello hello") "d1" "hello hello") "hello")).getD []) ∧
    ¬ ((alookup "d1" (getIdx (add_document (add_document emptyStore "d1"
        "hello hello") "d1" "hello hello") "hello")).getD []).Nodup := by
  refine ⟨by decide, by decide, by decide⟩

theorem foldl_append_of_empty (terms : List String)
    (h : ∀ t ∈ terms, preprocess t = []) :
    ∀ acc : List String, terms.foldl (fun acc t => acc ++ preprocess t) acc = acc := by
  induction terms with
  | nil => intro acc; rfl
  | cons t rest ih =>
    intro acc
    rw [List.foldl_cons, h t (List.mem_cons_self t rest),
      ih (fun t' ht' => h t' (List.mem_cons_of_mem t ht')), List.append_nil]

/-- C7: the empty-input asymmetry between AND and NOT.  `search_and` of an
empty input list, or of inputs that normalize to no tokens, is the empty set
(never "all documents"); `search_not([], excl)` is all document ids minus
`search_or(excl)`; and `search_not(incl, [])` with non-empty `incl` equals
`search_and(incl)`. -/
theorem C7_empty_asymmetry : ∀ (s : Store),
    search_and s [] = ∅ ∧
    (∀ terms : List String, (∀ t ∈ terms, preprocess t = []) →
      search_and s terms = ∅) ∧
    (∀ excl, search_not s [] excl = allDocs s \ search_or s excl) ∧
    (∀ incl, incl ≠ [] → search_not s incl [] = search_and s incl) := by
  intro s
  refine ⟨rfl, ?_, ?_, ?_⟩
  · intro terms h
    unfold search_and
    rw [foldl_append_of_empty terms h []]
    cases terms <;> simp
  · intro excl
    rfl
  · intro incl hne
    unfold search_not
    cases incl with
    | nil => exact absurd rfl hne
    | cons t rest =>
      have hor : search_or s [] = ∅ := rfl
      simp [hor]

/-- C7 witness: the asymmetry at a concrete store; `["the"]` normalizes to no
tokens and yields the empty set, and `search_not(["hello"], [])` agrees with
`search_and(["hello"])`. -/
theorem C7_witness :
    search_and (add_document emptyStore "d1" "hello") ["the"] = ∅ ∧
    search_not (add_document emptyStore "d1" "hello") ["hello"] [] =
      search_and (add_document emptyStore "d1" "hello") ["hello"] :=
  ⟨(C7_empty_asymmetry _).2.1 ["the"] (by decide),
   (C7_empty_asymmetry _).2.2.2 ["hello"] (by decide)⟩

theorem findAux_eq_runsAux : ∀ (cs : List Char),
    (∀ c ∈ cs, wordChar c = true → tokenChar c = true) →
    (∀ acc : List Char, acc ≠ [] →
      findAux true acc true cs = (runsAux acc cs).map String.mk) ∧
    findAux false [] false cs = (runsAux [] cs).map String.mk := by
  intro cs
  induction cs with
  | nil =>
    intro _
    constructor
    · intro acc hacc
      cases acc with
      | nil => exact absurd rfl hacc
      | cons a as => simp [findAux, runsAux]
    · simp [findAux, runsAux]
  | cons c rest ih =>
    intro h
    have hrest := ih (fun c' hc' => h c' (List.mem_cons_of_mem c hc'))
    cases htok : tokenChar c with
    | true =>
      constructor
      · intro acc hacc
        cases acc with
        | nil => exact absurd rfl hacc
        | cons a as =>
          simp only [findAux, runsAux, htok, List.isEmpty_cons, if_true]
          simpa using hrest.1 (c :: a :: as) (by simp)
      · simp only [findAux, runsAux, htok, List.isEmpty_nil, if_true]
        simpa using hrest.1 [c] (by simp)
    | false =>
      have hwc : wordChar c = false := by
        cases hw : wordChar c with
        | false => rfl
        | true => rw [h c (List.mem_cons_self c rest) hw] at htok; cases htok
      constructor
      · intro acc hacc
        cases acc with
        | nil => exact absurd rfl hacc
        | cons a as =>
          simp only [findAux, runsAux, htok, hwc, List.isEmpty_cons]
          simpa using hrest.2
      · simp only [findAux, runsAux, htok, hwc, List.isEmpty_nil]
        simpa using hrest.2

/-- C3, counterexample: the underscore is not in `[a-z0-9]`, yet it does NOT
act as a token separator — `\b` requires a word boundary and `_` is a word
character, so `preprocess "foo_bar"` yields no tokens at all rather than the
separator-split `["foo", "bar"]` the claim demands. -/
theorem C3_counterexample :
    preprocess "foo_bar" = [] ∧
    preprocess "foo_bar" ≠ ["foo", "bar"] ∧
    preprocess_spec "foo_bar" = ["foo", "bar"] := by
  refine ⟨by decide, by decide, by decide⟩

/-- C3, amended: `preprocess` lowercases and returns, in original order, the
maximal `[a-z0-9]` runs with stop words removed, PROVIDED every word
character (`[a-z0-9_]` and letters, in the ASCII model) of the lowercased
text is itself in `[a-z0-9]`; a word character outside `[a-z0-9]` (such as
`_`) is never part of a token but suppresses its adjacent runs instead of
separating them.  Empty input satisfies the hypothesis and yields `[]`. -/
theorem C3_amended : ∀ text : String,
    (∀ c ∈ text.data.map Char.toLower, wordChar c = true → tokenChar c = true) →
    preprocess text = preprocess_spec text := by
  intro text h
  unfold preprocess preprocess_spec maxRuns findTokens
  simp only []
  rw [(findAux_eq_runsAux _ h).2]

/-- C3 witness: the amended theorem applied to the concrete text
"Hello, World! 123", whose hypothesis holds and whose tokenizations agree. -/
theorem C3_witness :
    (∀ c ∈ ("Hello, World! 123".data.map Char.toLower),
      wordChar c = true → tokenChar c = true) ∧
    preprocess "Hello, World! 123" = preprocess_spec "Hello, World! 123" :=
  ⟨by decide, C3_amended "Hello, World! 123" (by decide)⟩

/-- C5: `search_phrase` returns the empty set when normalization yields no
tokens; the first token's document set when it yields exactly one token; and
otherwise exactly those documents `d` for which some start position `st` in
the first token's posting for `d` has, for every subsequent token at 1-based
offset `i`, position `st + i` in that token's posting for `d`.  In
particular, on a document containing "inverted index enables fast search",
the phrase "inverted index" matches and "index inverted" does not. -/
theorem C5_phrase_semantics :
    (∀ (s : Store) (phrase : String),
      (preprocess phrase = [] → (search_phrase_run s phrase).1 = ∅) ∧
      (∀ t, preprocess phrase = [t] →
        (search_phrase_run s phrase).1 = docsOf (getIdx s t)) ∧
      (∀ t0 t1 rest, preprocess phrase = t0 :: t1 :: rest →
        ∀ d, d ∈ (search_phrase_run s phrase).1 ↔
          ∃ st ∈ (alookup d (getIdx s t0)).getD [],
            ∀ pr ∈ List.enumFrom 1 (t1 :: rest),
              st + pr.1 ∈ (alookup d (getIdx s pr.2)).getD [])) ∧
    "doc3" ∈ (search_phrase_run phraseExampleStore "inverted index").1 ∧
    "doc3" ∉ (search_phrase_run phraseExampleStore "index inverted").1 := by
  refine ⟨?_, by decide, by decide⟩
  intro s phrase
  refine ⟨?_, ?_, ?_⟩
  · intro hp
    simp [search_phrase_run, hp]
  · intro t hp
    simp [search_phrase_run, hp]
  · intro t0 t1 rest hp d
    have hrun : (search_phrase_run s phrase).1 =
        (((getIdx s t0).map Prod.fst).filter (fun d =>
          ((alookup d ((alookup t0 s.index).getD [])).getD []).any
            (fun sp => offsetsOk s.index d sp (List.enumFrom 1 (t1 :: rest))))).toFinset := by
      simp only [search_phrase_run, hp]
      exact (phraseDocs_spec t0 _ _ s.index ExtOnly.refl).1
    rw [hrun]
    simp only [List.mem_toFinset, List.mem_filter]
    constructor
    · rintro ⟨hmem, hcond⟩
      rw [List.any_eq_true] at hcond
      obtain ⟨st, hst, hok⟩ := hcond
      refine ⟨st, hst, ?_⟩
      intro pr hpr
      unfold offsetsOk at hok
      rw [List.all_eq_true] at hok
      exact of_decide_eq_true (hok pr hpr)
    · rintro ⟨st, hst, hall⟩
      have hsome : ∃ ps, alookup d (getIdx s t0) = some ps ∧ st ∈ ps := by
        cases hl : alookup d (getIdx s t0) with
        | none =>
          rw [hl] at hst
          cases hst
        | some ps =>
          rw [hl] at hst
          exact ⟨ps, rfl, hst⟩
      obtain ⟨ps, hps, hstps⟩ := hsome
      constructor
      · exact List.mem_map_of_mem Prod.fst (alookup_mem hps)
      · rw [List.any_eq_true]
        refine ⟨st, hst, ?_⟩
        unfold offsetsOk
        rw [List.all_eq_true]
        intro pr hpr
        exact decide_eq_true (hall pr hpr)

/-- C5 witness: the multi-token characterization applied to the concrete
example store and phrase "inverted index" at document "doc3". -/
theorem C5_witness :
    "doc3" ∈ (search_phrase_run phraseExampleStore "inverted index").1 ↔
      ∃ st ∈ (alookup "doc3" (getIdx phraseExampleStore "inverted")).getD [],
        ∀ pr ∈ List.enumFrom 1 ["index"],
          st + pr.1 ∈ (alookup "doc3" (getIdx phraseExampleStore pr.2)).getD [] :=
  (C5_phrase_semantics.1 phraseExampleStore "inverted index").2.2 "inverted"
    "index" [] (by decide) "doc3"

theorem foldl_append_eq_join (terms : List String) :
    ∀ acc : List String,
      terms.foldl (fun a t => a ++ preprocess t) acc =
        acc ++ (terms.map preprocess).flatten := by
  induction terms with
  | nil => intro acc; simp
  | cons t rest ih =>
    intro acc
    rw [List.foldl_cons, ih, List.map_cons, List.flatten_cons, List.append_assoc]

theorem interList_subset (l : List (Finset String)) :
    ∀ acc : Finset String,
      l.foldl (fun a b => a ∩ b) acc ⊆ acc ∧
      ∀ x ∈ l, l.foldl (fun a b => a ∩ b) acc ⊆ x := by
  induction l with
  | nil => intro acc; exact ⟨Finset.Subset.refl acc, by simp⟩
  | cons z zs ih =>
    intro acc
    rw [List.foldl_cons]
    refine ⟨(ih (acc ∩ z)).1.trans (Finset.inter_subset_left), ?_⟩
    intro x hx
    rcases List.mem_cons.mp hx with h | h
    · subst h
      exact (ih (acc ∩ x)).1.trans (Finset.inter_subset_right)
    · exact (ih (acc ∩ z)).2 x h

theorem inter_foldl_join {s : Store} (rest : List String) :
    (∀ t ∈ rest, ∃ tok, preprocess t = [tok]) →
    ∀ acc : Finset String,
      ((rest.map preprocess).flatten).foldl
          (fun a tok => a ∩ docsOf (getIdx s tok)) acc =
        (rest.map (fun t => docsOf (search s t))).foldl (fun a b => a ∩ b) acc := by
  induction rest with
  | nil => intro _ acc; rfl
  | cons t rest ih =>
    intro h acc
    obtain ⟨tok, htok⟩ := h t (List.mem_cons_self t rest)
    have hsearch : search s t = getIdx s tok := by
      unfold search
      rw [htok]
    simp only [List.map_cons, List.flatten_cons, htok, List.singleton_append,
      List.foldl_cons, hsearch]
    exact ih (fun t' ht' => h t' (List.mem_cons_of_mem t ht')) _

/-- C6, counterexample: `search_and` and per-input `search` intersections
disagree when an input normalizes to other than one token.  With only
document "d1" = "hello" stored, `search_and(["the", "hello"])` drops the
stop word "the" entirely and returns {"d1"}, while `search("the")` has the
empty document set, so the claimed intersection is empty. -/
theorem C6_counterexample :
    search_and (add_document emptyStore "d1" "hello") ["the", "hello"] = {"d1"} ∧
    docsOf (search (add_document emptyStore "d1" "hello") "the") = ∅ ∧
    search_and (add_document emptyStore "d1" "hello") ["the", "hello"] ≠
      interList (["the", "hello"].map
        (fun t => docsOf (search (add_document emptyStore "d1" "hello") t))) := by
  refine ⟨by decide, by decide, by decide⟩

/-- C6, amended: for every store and every non-empty list of input terms
EACH OF WHICH normalizes to exactly one token, `search_and` equals the
intersection of the document sets of `search(ti)` over all i, and is empty
whenever some `ti` has no postings.  (For inputs normalizing to zero or
several tokens, `search_and` flattens all tokens while `search` uses only
the first, and the two sides can differ.) -/
theorem C6_amended : ∀ (s : Store) (terms : List String),
    terms ≠ [] →
    (∀ t ∈ terms, ∃ tok, preprocess t = [tok]) →
    search_and s terms =
      interList (terms.map (fun t => docsOf (search s t))) ∧
    ((∃ t ∈ terms, docsOf (search s t) = ∅) → search_and s terms = ∅) := by
  intro s terms hne h
  have hmain : search_and s terms =
      interList (terms.map (fun t => docsOf (search s t))) := by
    cases terms with
    | nil => exact absurd rfl hne
    | cons t rest =>
      obtain ⟨tok, htok⟩ := h t (List.mem_cons_self t rest)
      have hsearch : search s t = getIdx s tok := by
        unfold search
        rw [htok]
      unfold search_and interList
      rw [foldl_append_eq_join]
      simp only [List.isEmpty_cons, Bool.false_eq_true, if_false, List.nil_append,
        List.map_cons, List.flatten_cons, htok, List.singleton_append, hsearch]
      exact inter_foldl_join rest (fun t' ht' => h t' (List.mem_cons_of_mem t ht')) _
  refine ⟨hmain, ?_⟩
  rintro ⟨t, ht, hempty⟩
  rw [hmain]
  have hsub : interList (terms.map (fun t => docsOf (search s t))) ⊆
      docsOf (search s t) := by
    cases hm : terms.map (fun t => docsOf (search s t)) with
    | nil =>
      rw [List.map_eq_nil_iff] at hm
      subst hm
      cases ht
    | cons y ys =>
      have hmem : docsOf (search s t) ∈ terms.map (fun t => docsOf (search s t)) :=
        List.mem_map_of_mem _ ht
      rw [hm] at hmem
      unfold interList
      rcases List.mem_cons.mp hmem with hq | hq
      · subst hq
        exact (interList_subset ys _).1
      · exact (interList_subset ys y).2 _ hq
  rw [hempty] at hsub
  exact Finset.subset_empty.mp hsub

/-- C6 witness: the amended equation at a concrete store and the single-token
input list `["hello"]`. -/
theorem C6_witness :
    search_and (add_document emptyStore "d1" "hello") ["hello"] =
      interList (["hello"].map
        (fun t => docsOf (search (add_document emptyStore "d1" "hello") t))) :=
  (C6_amended (add_document emptyStore "d1" "hello") ["hello"] (by decide)
    (by
      intro t ht
      rw [List.mem_singleton] at ht
      subst ht
      exact ⟨"hello", by decide⟩)).1

theorem alookup_aset_self {β : Type} (k : String) (v : β) (l : List (String × β)) :
    alookup k (aset k v l) = some v := by
  unfold aset
  rw [alookup_aupdate_self]

theorem not_mem_docsOf_of_noPostings {idx : Index} {id : String}
    (h : ∀ tp ∈ idx, alookup id tp.2 = none) (t : String) :
    id ∉ docsOf ((alookup t idx).getD []) := by
  cases hl : alookup t idx with
  | none => simp [docsOf]
  | some inner =>
    intro hmem
    simp only [docsOf, Option.getD_some, List.mem_toFinset, List.mem_map] at hmem
    obtain ⟨⟨k, v⟩, hkv, hk⟩ := hmem
    cases hk
    have hsome := mem_alookup_isSome hkv
    rw [h (t, inner) (alookup_mem hl)] at hsome
    cases hsome

theorem foldl_union_inner_not_mem {s : Store} {x : String}
    (h : ∀ t, x ∉ docsOf (getIdx s t)) (toks : List String) :
    ∀ acc : Finset String, x ∉ acc →
      x ∉ toks.foldl (fun a tok => a ∪ docsOf (getIdx s tok)) acc := by
  induction toks with
  | nil => intro acc hacc; exact hacc
  | cons tok toks ih =>
    intro acc hacc
    rw [List.foldl_cons]
    refine ih _ ?_
    rw [Finset.mem_union]
    rintro (hc | hc)
    · exact hacc hc
    · exact h tok hc

theorem search_or_not_mem {s : Store} {x : String}
    (h : ∀ t, x ∉ docsOf (getIdx s t)) (terms : List String) :
    x ∉ search_or s terms := by
  unfold search_or
  have general : ∀ (l : List String) (acc : Finset String), x ∉ acc →
      x ∉ l.foldl (fun acc t => (preprocess t).foldl
        (fun a tok => a ∪ docsOf (getIdx s tok)) acc) acc := by
    intro l
    induction l with
    | nil => intro acc hacc; exact hacc
    | cons t l ih =>
      intro acc hacc
      rw [List.foldl_cons]
      exact ih _ (foldl_union_inner_not_mem h (preprocess t) acc hacc)
  exact general terms ∅ (Finset.not_mem_empty x)

theorem search_phrase_not_mem {s : Store} {x : String}
    (h : ∀ t, x ∉ docsOf (getIdx s t)) (phrase : String) :
    x ∉ (search_phrase_run s phrase).1 := by
  rw [search_phrase_run_fst]
  unfold search_phrase
  cases preprocess phrase with
  | nil => exact Finset.not_mem_empty x
  | cons t0 ts =>
    cases ts with
    | nil => exact h t0
    | cons t1 rest =>
      intro hmem
      simp only [List.mem_toFinset, List.mem_filter] at hmem
      refine h t0 ?_
      simp only [docsOf, List.mem_toFinset]
      exact hmem.1

/-- C10, counterexample: after re-adding id "d" whose first content was
"hello" with new content "the" (which normalizes to zero tokens), the store
records doc_length 0 for "d" and yet `search("hello")` still RETURNS "d"
through the stale posting, contradicting the claim that no search can ever
return such a document. -/
theorem C10_counterexample :
    preprocess "the" = [] ∧
    alookup "d" (add_document (add_document emptyStore "d" "hello") "d"
      "the").doc_lengths = some 0 ∧
    "d" ∈ docsOf (search (add_document (add_document emptyStore "d" "hello")
      "d" "the") "hello") := by
  refine ⟨by decide, by decide, by decide⟩

/-- C10, amended: a document whose content normalizes to zero tokens is
still recorded — raw content under `documents`, count 0 under
`doc_lengths`, and its id appears in `search_not([], [])` — and PROVIDED the
id holds no posting in the pre-add index (e.g. it was never added before),
no `search`, `search_or` or `search_phrase` query ever returns it. -/
theorem C10_amended : ∀ (s : Store) (id content : String),
    preprocess content = [] →
    (∀ tp ∈ s.index, alookup id tp.2 = none) →
    alookup id (add_document s id content).documents = some content ∧
    alookup id (add_document s id content).doc_lengths = some 0 ∧
    id ∈ search_not (add_document s id content) [] [] ∧
    (∀ term, id ∉ docsOf (search (add_document s id content) term)) ∧
    (∀ terms, id ∉ search_or (add_document s id content) terms) ∧
    (∀ phrase, id ∉ (search_phrase_run (add_document s id content) phrase).1) := by
  intro s id content hcontent hno
  have hidx : (add_document s id content).index = s.index := by
    unfold add_document
    rw [hcontent]
    rfl
  have hno' : ∀ t, id ∉ docsOf (getIdx (add_document s id content) t) := by
    intro t
    unfold getIdx
    rw [hidx]
    exact not_mem_docsOf_of_noPostings hno t
  have hsearch : ∀ term, id ∉ docsOf (search (add_document s id content) term) := by
    intro term
    unfold search
    cases preprocess term with
    | nil => simp [docsOf]
    | cons t _ => exact hno' t
  refine ⟨?_, ?_, ?_, hsearch, fun terms => search_or_not_mem hno' terms,
    fun phrase => search_phrase_not_mem hno' phrase⟩
  · unfold add_document
    exact alookup_aset_self id content s.documents
  · unfold add_document
    rw [hcontent]
    exact alookup_aset_self id 0 s.doc_lengths
  · unfold search_not
    rw [Finset.mem_sdiff]
    constructor
    · unfold allDocs add_document
      simp only [List.isEmpty_nil, if_true, List.mem_toFinset, List.mem_map]
      exact ⟨(id, content), alookup_mem (alookup_aset_self id content s.documents), rfl⟩
    · intro hmem
      exact absurd hmem (by exact Finset.not_mem_empty id)

/-- C10 witness: the amended claim at a concrete store (one unrelated
document "a") and a fresh id "b" with stop-word-only content "the of". -/
theorem C10_witness :
    alookup "b" (add_document (add_document emptyStore "a" "hello") "b"
      "the of").documents = some "the of" ∧
    alookup "b" (add_document (add_document emptyStore "a" "hello") "b"
      "the of").doc_lengths = some 0 ∧
    "b" ∈ search_not (add_document (add_document emptyStore "a" "hello") "b"
      "the of") [] [] := by
  have h := C10_amended (add_document emptyStore "a" "hello") "b" "the of"
    (by decide) (by decide)
  exact ⟨h.1, h.2.1, h.2.2.1⟩

/-!  Round-trip of the persistence codec: `load_record (save_record s)`
rebuilds an add-built store exactly. -/

theorem aupdate_fresh {β : Type} {k : String} (d : β) (f : β → β)
    {l : List (String × β)} (h : k ∉ keysOf l) :
    aupdate k d f l = l ++ [(k, f d)] := by
  induction l with
  | nil => rfl
  | cons p rest ih =>
    obtain ⟨k', v⟩ := p
    simp only [keysOf, List.map_cons, List.mem_cons, not_or] at h
    show aupdate k d f ((k', v) :: rest) = (k', v) :: (rest ++ [(k, f d)])
    unfold aupdate
    rw [if_neg (Ne.symm h.1), ih h.2]

theorem aupdate_append_last {β : Type} {k : String} (d : β) (f : β → β)
    {acc : List (String × β)} (v : β) (h : k ∉ keysOf acc) :
    aupdate k d f (acc ++ [(k, v)]) = acc ++ [(k, f v)] := by
  induction acc with
  | nil => simp [aupdate]
  | cons p rest ih =>
    obtain ⟨k', v'⟩ := p
    simp only [keysOf, List.map_cons, List.mem_cons, not_or] at h
    show aupdate k d f ((k', v') :: (rest ++ [(k, v)])) =
      (k', v') :: (rest ++ [(k, f v)])
    unfold aupdate
    rw [if_neg (Ne.symm h.1), ih h.2]

theorem aupdate_ne_nil {β : Type} (k : String) (d : β) (f : β → β)
    (l : List (String × β)) : aupdate k d f l ≠ [] := by
  cases l with
  | nil => simp [aupdate]
  | cons p rest =>
    obtain ⟨k', v⟩ := p
    unfold aupdate
    by_cases h : k' = k <;> simp [h]

theorem inner_rebuild (t : String) (ds : Postings) :
    ∀ (acc : Index) (cur : Postings),
      t ∉ keysOf acc →
      (∀ q ∈ ds, q.1 ∉ keysOf cur) →
      (keysOf ds).Nodup →
      ds.foldl (fun idx2 dp => aupdate t [] (aset dp.1 dp.2) idx2)
          (acc ++ [(t, cur)]) =
        acc ++ [(t, cur ++ ds)] := by
  induction ds with
  | nil =>
    intro acc cur _ _ _
    simp
  | cons dp ds ih =>
    intro acc cur hacc hcur hnodup
    obtain ⟨d0, ps0⟩ := dp
    rw [List.foldl_cons]
    have hstep : aupdate t [] (aset d0 ps0) (acc ++ [(t, cur)]) =
        acc ++ [(t, aset d0 ps0 cur)] := aupdate_append_last _ _ _ hacc
    have hset : aset d0 ps0 cur = cur ++ [(d0, ps0)] := by
      unfold aset
      exact aupdate_fresh _ _ (hcur (d0, ps0) (List.mem_cons_self _ _))
    rw [hstep, hset]
    simp only [keysOf, List.map_cons, List.nodup_cons] at hnodup
    have hcur' : ∀ q ∈ ds, q.1 ∉ keysOf (cur ++ [(d0, ps0)]) := by
      intro q hq
      simp only [keysOf, List.map_append, List.map_cons, List.map_nil,
        List.mem_append, List.mem_cons, not_or]
      refine ⟨?_, ?_, by simp⟩
      · have := hcur q (List.mem_cons_of_mem _ hq)
        simpa [keysOf] using this
      · intro heq
        exact hnodup.1 (heq ▸ List.mem_map_of_mem Prod.fst hq)
    have hrec := ih acc (cur ++ [(d0, ps0)]) hacc hcur' hnodup.2
    rw [hrec]
    simp

theorem outer_rebuild (l : Index) :
    ∀ acc : Index,
      (∀ k ∈ keysOf l, k ∉ keysOf acc) →
      (keysOf l).Nodup →
      (∀ tp ∈ l, tp.2 ≠ [] ∧ (keysOf tp.2).Nodup) →
      l.foldl (fun idx tp => tp.2.foldl
          (fun idx2 dp => aupdate tp.1 [] (aset dp.1 dp.2) idx2) idx) acc =
        acc ++ l := by
  induction l with
  | nil =>
    intro acc _ _ _
    simp
  | cons tp rest ih =>
    intro acc hdisj hnodup hvals
    obtain ⟨t, inner⟩ := tp
    obtain ⟨hne, hinnernodup⟩ := hvals (t, inner) (List.mem_cons_self _ _)
    cases inner with
    | nil => exact absurd rfl hne
    | cons dp0 ds =>
      obtain ⟨d0, ps0⟩ := dp0
      rw [List.foldl_cons]
      have htacc : t ∉ keysOf acc :=
        hdisj t (by simp [keysOf])
      have hfirst : aupdate t [] (aset d0 ps0) acc = acc ++ [(t, [(d0, ps0)])] := by
        rw [aupdate_fresh _ _ htacc]
        rfl
      simp only [keysOf, List.map_cons, List.nodup_cons] at hinnernodup
      have hds : ds.foldl (fun idx2 dp => aupdate t [] (aset dp.1 dp.2) idx2)
          (acc ++ [(t, [(d0, ps0)])]) = acc ++ [(t, (d0, ps0) :: ds)] := by
        have hq : ∀ q ∈ ds, q.1 ∉ keysOf [(d0, ps0)] := by
          intro q hq
          simp only [keysOf, List.map_cons, List.map_nil, List.mem_singleton]
          intro heq
          exact hinnernodup.1 (heq ▸ List.mem_map_of_mem Prod.fst hq)
        have := inner_rebuild t ds acc [(d0, ps0)] htacc hq hinnernodup.2
        simpa using this
      have hinnerfold : ((d0, ps0) :: ds).foldl
          (fun idx2 dp => aupdate t [] (aset dp.1 dp.2) idx2) acc =
          acc ++ [(t, (d0, ps0) :: ds)] := by
        rw [List.foldl_cons, hfirst, hds]
      simp only [keysOf, List.map_cons, List.nodup_cons] at hnodup
      have hdisj' : ∀ k ∈ keysOf rest, k ∉ keysOf (acc ++ [(t, (d0, ps0) :: ds)]) := by
        intro k hk
        simp only [keysOf, List.map_append, List.map_cons, List.map_nil,
          List.mem_append, List.mem_cons, not_or]
        refine ⟨?_, ?_, by simp⟩
        · refine hdisj k ?_
          simp only [keysOf, List.map_cons, List.mem_cons]
          right
          simpa [keysOf] using hk
        · intro heq
          exact hnodup.1 (heq ▸ hk)
      have hvals' : ∀ tp ∈ rest, tp.2 ≠ [] ∧ (keysOf tp.2).Nodup :=
        fun q hq => hvals q (List.mem_cons_of_mem _ hq)
      have hrec := ih (acc ++ [(t, (d0, ps0) :: ds)]) hdisj' hnodup.2 hvals'
      show rest.foldl (fun idx tp => tp.2.foldl
          (fun idx2 dp => aupdate tp.1 [] (aset dp.1 dp.2) idx2) idx)
          (((d0, ps0) :: ds).foldl
            (fun idx2 dp => aupdate t [] (aset dp.1 dp.2) idx2) acc) =
        acc ++ (t, (d0, ps0) :: ds) :: rest
      rw [hinnerfold, hrec]
      simp

theorem keysOf_aupdate {β : Type} (k : String) (d : β) (f : β → β)
    (l : List (String × β)) :
    keysOf (aupdate k d f l) =
      if k ∈ keysOf l then keysOf l else keysOf l ++ [k] := by
  induction l with
  | nil => simp [aupdate, keysOf]
  | cons p rest ih =>
    obtain ⟨k', v⟩ := p
    by_cases h : k' = k
    · subst h
      simp [aupdate, keysOf]
    · simp only [aupdate, h, if_false, keysOf, List.map_cons] at ih ⊢
      by_cases hm : k ∈ keysOf rest
      · simp only [keysOf] at hm
        simp [hm, ih, Ne.symm h]
      · simp only [keysOf] at hm
        simp [hm, ih, Ne.symm h]

theorem nodup_keysOf_aupdate {β : Type} {k : String} {d : β} {f : β → β}
    {l : List (String × β)} (hl : (keysOf l).Nodup) :
    (keysOf (aupdate k d f l)).Nodup := by
  rw [keysOf_aupdate]
  by_cases hm : k ∈ keysOf l
  · simpa [hm] using hl
  · simp [hm, List.nodup_append, hl]

theorem aupdate_values {β : Type} (P : β → Prop) (k : String) (d : β)
    (f : β → β) (l : List (String × β)) (hl : ∀ p ∈ l, P p.2) (hd : P (f d))
    (hf : ∀ v, P v → P (f v)) : ∀ p ∈ aupdate k d f l, P p.2 := by
  induction l with
  | nil =>
    intro p hp
    simp only [aupdate, List.mem_singleton] at hp
    subst hp
    exact hd
  | cons q rest ih =>
    obtain ⟨k', v⟩ := q
    intro p hp
    by_cases h : k' = k
    · simp only [aupdate, h, if_true] at hp
      rcases List.mem_cons.mp hp with h1 | h1
      · subst h1
        exact hf v (hl (k, v) (h ▸ List.mem_cons_self _ _))
      · exact hl p (List.mem_cons_of_mem _ h1)
    · simp only [aupdate, h, if_false] at hp
      rcases List.mem_cons.mp hp with h1 | h1
      · subst h1
        exact hl (k', v) (List.mem_cons_self _ _)
      · exact ih (fun q hq => hl q (List.mem_cons_of_mem _ hq)) p h1

theorem IndexWF_aupdate_step {idx : Index} (tok id : String) (pos : Nat)
    (h : IndexWF idx) :
    IndexWF (aupdate tok []
      (fun inner => aupdate id [] (fun ps => ps ++ [pos]) inner) idx) := by
  refine ⟨nodup_keysOf_aupdate h.1, ?_⟩
  apply aupdate_values (fun inner => inner ≠ [] ∧ (keysOf inner).Nodup)
  · exact h.2
  · refine ⟨by simp [aupdate], by simp [aupdate, keysOf]⟩
  · intro v hv
    exact ⟨aupdate_ne_nil _ _ _ _, nodup_keysOf_aupdate hv.2⟩

theorem IndexWF_add_document (s : Store) (id content : String)
    (h : IndexWF s.index) : IndexWF (add_document s id content).index := by
  unfold add_document
  simp only []
  have general : ∀ (pts : List (Nat × String)) (idx : Index), IndexWF idx →
      IndexWF (pts.foldl (fun idx pt => aupdate pt.2 []
        (fun inner => aupdate id [] (fun ps => ps ++ [pt.1]) inner) idx) idx) := by
    intro pts
    induction pts with
    | nil => intro idx hidx; exact hidx
    | cons pt rest ih =>
      intro idx hidx
      rw [List.foldl_cons]
      exact ih _ (IndexWF_aupdate_step pt.2 id pt.1 hidx)
  exact general _ _ h

theorem IndexWF_build (docs : List (String × String)) :
    ∀ s : Store, IndexWF s.index →
      IndexWF (build_from_documents s docs).index := by
  induction docs with
  | nil => intro s h; exact h
  | cons p rest ih =>
    intro s h
    unfold build_from_documents
    rw [List.foldl_cons]
    exact ih _ (IndexWF_add_document s p.1 p.2 h)

theorem IndexWF_empty : IndexWF emptyStore.index :=
  ⟨List.nodup_nil, by intro tp htp; cases htp⟩

theorem load_save_eq (s : Store) (h : IndexWF s.index) :
    load_record (save_record s) = s := by
  obtain ⟨idx, docs, lens⟩ := s
  unfold load_record save_record
  simp only []
  congr 1
  simpa using outer_rebuild idx [] (by intro k _ hk; cases hk) h.1 h.2

/-- C8: serialization round-trip is lossless for every store built from a
finite document collection.  The record assembled by `save_to_file` (the
`index`, `documents` and `doc_lengths` mappings) reloads to a store equal to
the original, hence every query operation returns identical results before
and after the round-trip. -/
theorem C8_roundtrip : ∀ docs : List (String × String),
    load_record (save_record (build_from_documents emptyStore docs)) =
      build_from_documents emptyStore docs ∧
    (∀ term, search (load_record (save_record
        (build_from_documents emptyStore docs))) term =
      search (build_from_documents emptyStore docs) term) ∧
    (∀ ts, search_and (load_record (save_record
        (build_from_documents emptyStore docs))) ts =
      search_and (build_from_documents emptyStore docs) ts) ∧
    (∀ ts, search_or (load_record (save_record
        (build_from_documents emptyStore docs))) ts =
      search_or (build_from_documents emptyStore docs) ts) ∧
    (∀ incl excl, search_not (load_record (save_record
        (build_from_documents emptyStore docs))) incl excl =
      search_not (build_from_documents emptyStore docs) incl excl) ∧
    (∀ phrase, (search_phrase_run (load_record (save_record
        (build_from_documents emptyStore docs))) phrase).1 =
      (search_phrase_run (build_from_documents emptyStore docs) phrase).1) ∧
    (∀ term d, get_term_frequency (load_record (save_record
        (build_from_documents emptyStore docs))) term d =
      get_term_frequency (build_from_documents emptyStore docs) term d) ∧
    (∀ term, get_document_frequency (load_record (save_record
        (build_from_documents emptyStore docs))) term =
      get_document_frequency (build_from_documents emptyStore docs) term) := by
  intro docs
  have hwf := IndexWF_build docs emptyStore IndexWF_empty
  have heq := load_save_eq _ hwf
  refine ⟨heq, ?_, ?_, ?_, ?_, ?_, ?_, ?_⟩ <;> intros <;> rw [heq]

/-!  Token conservation: each filtered token contributes exactly one position
to exactly one posting, so `doc_lengths[d]` equals the total posting length
for `d` in stores built with pairwise-distinct ids. -/

theorem sum_aupdate_self (idx : Index) (tok d : String) (pos : Nat) :
    ((aupdate tok [] (fun inner => aupdate d [] (fun ps => ps ++ [pos]) inner)
        idx).map (fun tp => ((alookup d tp.2).getD []).length)).sum =
      (idx.map (fun tp => ((alookup d tp.2).getD []).length)).sum + 1 := by
  induction idx with
  | nil => simp [aupdate, alookup]
  | cons p rest ih =>
    obtain ⟨k, v⟩ := p
    by_cases h : k = tok
    · have hu : aupdate tok []
          (fun inner => aupdate d [] (fun ps => ps ++ [pos]) inner)
          ((k, v) :: rest) =
          (k, aupdate d [] (fun ps => ps ++ [pos]) v) :: rest := by
        simp only [aupdate]
        rw [if_pos h]
      rw [hu]
      simp only [List.map_cons, List.sum_cons, alookup_aupdate_self,
        Option.getD_some, List.length_append, List.length_singleton]
      ring
    · have hu : aupdate tok []
          (fun inner => aupdate d [] (fun ps => ps ++ [pos]) inner)
          ((k, v) :: rest) =
          (k, v) :: aupdate tok []
            (fun inner => aupdate d [] (fun ps => ps ++ [pos]) inner) rest := by
        simp only [aupdate]
        rw [if_neg h]
      rw [hu]
      simp only [List.map_cons, List.sum_cons]
      rw [ih]
      omega

theorem sum_aupdate_other (idx : Index) (tok d d' : String) (pos : Nat)
    (hne : d ≠ d') :
    ((aupdate tok [] (fun inner => aupdate d' [] (fun ps => ps ++ [pos]) inner)
        idx).map (fun tp => ((alookup d tp.2).getD []).length)).sum =
      (idx.map (fun tp => ((alookup d tp.2).getD []).length)).sum := by
  induction idx with
  | nil => simp [aupdate, alookup, Ne.symm hne]
  | cons p rest ih =>
    obtain ⟨k, v⟩ := p
    by_cases h : k = tok
    · have hu : aupdate tok []
          (fun inner => aupdate d' [] (fun ps => ps ++ [pos]) inner)
          ((k, v) :: rest) =
          (k, aupdate d' [] (fun ps => ps ++ [pos]) v) :: rest := by
        simp only [aupdate]
        rw [if_pos h]
      rw [hu]
      simp only [List.map_cons, List.sum_cons, alookup_aupdate_ne _ _ _ hne]
    · have hu : aupdate tok []
          (fun inner => aupdate d' [] (fun ps => ps ++ [pos]) inner)
          ((k, v) :: rest) =
          (k, v) :: aupdate tok []
            (fun inner => aupdate d' [] (fun ps => ps ++ [pos]) inner) rest := by
        simp only [aupdate]
        rw [if_neg h]
      rw [hu]
      simp only [List.map_cons, List.sum_cons]
      rw [ih]

theorem noPostings_sum_zero {idx : Index} {d : String} (h : NoPostings idx d) :
    (idx.map (fun tp => ((alookup d tp.2).getD []).length)).sum = 0 := by
  apply List.sum_eq_zero
  intro x hx
  rw [List.mem_map] at hx
  obtain ⟨tp, htp, hval⟩ := hx
  rw [h tp htp] at hval
  simpa using hval.symm

theorem sum_add_document_self (s : Store) (d content : String)
    (hfresh : NoPostings s.index d) :
    sumPostings (add_document s d content) d = (preprocess content).length := by
  unfold add_document sumPostings
  simp only []
  have general : ∀ (pts : List (Nat × String)) (idx : Index),
      ((pts.foldl (fun idx pt => aupdate pt.2 []
          (fun inner => aupdate d [] (fun ps => ps ++ [pt.1]) inner) idx)
        idx).map (fun tp => ((alookup d tp.2).getD []).length)).sum =
      (idx.map (fun tp => ((alookup d tp.2).getD []).length)).sum + pts.length := by
    intro pts
    induction pts with
    | nil => intro idx; simp
    | cons pt rest ih =>
      intro idx
      rw [List.foldl_cons, ih, sum_aupdate_self]
      simp only [List.length_cons]
      omega
  rw [general, noPostings_sum_zero hfresh, List.enum_length, Nat.zero_add]

theorem sum_add_document_other (s : Store) (d d' content : String)
    (hne : d ≠ d') :
    sumPostings (add_document s d' content) d = sumPostings s d := by
  unfold add_document sumPostings
  simp only []
  have general : ∀ (pts : List (Nat × String)) (idx : Index),
      ((pts.foldl (fun idx pt => aupdate pt.2 []
          (fun inner => aupdate d' [] (fun ps => ps ++ [pt.1]) inner) idx)
        idx).map (fun tp => ((alookup d tp.2).getD []).length)).sum =
      (idx.map (fun tp => ((alookup d tp.2).getD []).length)).sum := by
    intro pts
    induction pts with
    | nil => intro idx; rfl
    | cons pt rest ih =>
      intro idx
      rw [List.foldl_cons, ih, sum_aupdate_other _ _ _ _ _ hne]
  rw [general]

theorem noPostings_add_other (s : Store) (d d' content : String)
    (hne : d ≠ d') (h : NoPostings s.index d) :
    NoPostings (add_document s d' content).index d := by
  unfold add_document
  simp only []
  have general : ∀ (pts : List (Nat × String)) (idx : Index),
      NoPostings idx d →
      NoPostings (pts.foldl (fun idx pt => aupdate pt.2 []
        (fun inner => aupdate d' [] (fun ps => ps ++ [pt.1]) inner) idx) idx) d := by
    intro pts
    induction pts with
    | nil => intro idx hidx; exact hidx
    | cons pt rest ih =>
      intro idx hidx
      rw [List.foldl_cons]
      apply ih
      intro tp htp
      refine aupdate_values (fun inner => alookup d inner = none) _ _ _ _
        hidx ?_ ?_ tp htp
      · unfold aupdate
        simp [alookup, Ne.symm hne]
      · intro v hv
        rw [alookup_aupdate_ne _ _ _ hne, hv]
  exact general _ _ h

theorem doc_lengths_add_other (s : Store) (d d' content : String)
    (hne : d ≠ d') :
    alookup d (add_document s d' content).doc_lengths =
      alookup d s.doc_lengths := by
  unfold add_document aset
  exact alookup_aupdate_ne _ _ _ hne

theorem build_preserve (docs : List (String × String)) (d : String)
    (hnotin : d ∉ docs.map Prod.fst) :
    ∀ s : Store,
      sumPostings (build_from_documents s docs) d = sumPostings s d ∧
      alookup d (build_from_documents s docs).doc_lengths =
        alookup d s.doc_lengths := by
  induction docs with
  | nil => intro s; exact ⟨rfl, rfl⟩
  | cons p rest ih =>
    intro s
    obtain ⟨d0, c0⟩ := p
    simp only [List.map_cons, List.mem_cons, not_or] at hnotin
    unfold build_from_documents
    rw [List.foldl_cons]
    have hrec := ih hnotin.2 (add_document s d0 c0)
    unfold build_from_documents at hrec
    refine ⟨?_, ?_⟩
    · rw [hrec.1, sum_add_document_other s d d0 c0 hnotin.1]
    · rw [hrec.2, doc_lengths_add_other s d d0 c0 hnotin.1]

theorem build_noPostings (docs : List (String × String)) (d : String)
    (hnotin : d ∉ docs.map Prod.fst) :
    ∀ s : Store, NoPostings s.index d →
      NoPostings (build_from_documents s docs).index d := by
  induction docs with
  | nil => intro s h; exact h
  | cons p rest ih =>
    intro s h
    obtain ⟨d0, c0⟩ := p
    simp only [List.map_cons, List.mem_cons, not_or] at hnotin
    unfold build_from_documents
    rw [List.foldl_cons]
    exact ih hnotin.2 _ (noPostings_add_other s d d0 c0 hnotin.1 h)

theorem tf_le_sum (s : Store) (term d : String) :
    get_term_frequency s term d ≤ sumPostings s d := by
  unfold get_term_frequency
  cases hp : preprocess term with
  | nil => exact Nat.zero_le _
  | cons t rest2 =>
    show ((alookup d ((alookup t s.index).getD [])).getD []).length ≤
      sumPostings s d
    cases hl : alookup t s.index with
    | none => simp [alookup]
    | some inner =>
      have hmem : ((alookup d inner).getD []).length ∈
          s.index.map (fun tp => ((alookup d tp.2).getD []).length) :=
        List.mem_map_of_mem _ (alookup_mem hl)
      unfold sumPostings
      exact List.single_le_sum (fun x _ => Nat.zero_le x) _ hmem


theorem build_sum_eq (docs : List (String × String)) :
    ∀ s : Store, (docs.map Prod.fst).Nodup →
    ∀ d content, (d, content) ∈ docs → NoPostings s.index d →
    alookup d (build_from_documents s docs).doc_lengths =
      some (preprocess content).length ∧
    sumPostings (build_from_documents s docs) d =
      (preprocess content).length := by
  induction docs with
  | nil =>
    intro s _ d content hmem
    cases hmem
  | cons p rest ih =>
    intro s hnodup d content hmem hfresh
    obtain ⟨d0, c0⟩ := p
    simp only [List.map_cons, List.nodup_cons] at hnodup
    unfold build_from_documents
    rw [List.foldl_cons]
    rcases List.mem_cons.mp hmem with h1 | h1
    · have hd : d = d0 ∧ content = c0 := by
        constructor
        · exact congrArg Prod.fst h1
        · exact congrArg Prod.snd h1
      obtain ⟨hdd, hcc⟩ := hd
      subst hdd
      subst hcc
      have hnot : d ∉ rest.map Prod.fst := hnodup.1
      have hp := build_preserve rest d hnot (add_document s d content)
      unfold build_from_documents at hp
      constructor
      · rw [hp.2]
        unfold add_document aset
        rw [alookup_aupdate_self]
      · rw [hp.1, sum_add_document_self s d content hfresh]
    · have hdne : d ≠ d0 := by
        intro heq
        subst heq
        exact hnodup.1 (List.mem_map_of_mem Prod.fst h1)
      have := ih (add_document s d0 c0) hnodup.2 d content h1
        (noPostings_add_other s d d0 c0 hdne hfresh)
      unfold build_from_documents at this
      exact this

/-- C9: in a store built by `add_document` calls with pairwise-distinct ids,
`doc_lengths[d]` equals the total length of all position lists recorded for
`d` across the index (each filtered token occupies exactly one position in
exactly one posting), and consequently `get_term_frequency` never exceeds
`doc_lengths[d]`. -/
theorem C9_doc_length_sum : ∀ (docs : List (String × String)),
    (docs.map Prod.fst).Nodup →
    ∀ d content, (d, content) ∈ docs →
    alookup d (build_from_documents emptyStore docs).doc_lengths =
      some (sumPostings (build_from_documents emptyStore docs) d) ∧
    ∀ term, get_term_frequency (build_from_documents emptyStore docs) term d ≤
      (alookup d (build_from_documents emptyStore
        docs).doc_lengths).getD 0 := by
  intro docs hnodup d content hmem
  have h := build_sum_eq docs emptyStore hnodup d content hmem
    (by intro tp htp; cases htp)
  constructor
  · rw [h.1, h.2]
  · intro term
    rw [h.1]
    simp only [Option.getD_some]
    rw [← h.2]
    exact tf_le_sum _ term d

/-- C9 witness: the invariant at a concrete two-document store. -/
theorem C9_witness :
    alookup "doc1" (build_from_documents emptyStore
      [("doc1", "hello world"), ("doc2", "hello")]).doc_lengths =
      some (sumPostings (build_from_documents emptyStore
        [("doc1", "hello world"), ("doc2", "hello")]) "doc1") ∧
    get_term_frequency (build_from_documents emptyStore
        [("doc1", "hello world"), ("doc2", "hello")]) "hello" "doc1" ≤
      (alookup "doc1" (build_from_documents emptyStore
        [("doc1", "hello world"), ("doc2", "hello")]).doc_lengths).getD 0 := by
  have h := C9_doc_length_sum [("doc1", "hello world"), ("doc2", "hello")]
    (by decide) "doc1" "hello world" (by decide)
  exact ⟨h.1, h.2 "hello"⟩

end InvertedIndex
